/-
  Verification of the ClipSyncer clipboard-history manager.

  Shallow embedding of the parts of the program relevant to the checked
  properties:
  * `src/core/clipboard/history.py`  — ClipboardEntry, ClipboardHistory
  * `src/core/encryption/manager.py` — EncryptionManager (AES-256-GCM)
  * `src/services/sync/github_sync.py` — GitHubSyncService real-time sync
  * `src/utils/config_manager.py`    — ConfigManager get/set

  Machine bytes are modelled as `Nat` with explicit `% 256` where overflow
  matters; Python dicts are modelled as association lists with first-match
  lookup, in-place replacement on existing keys and append on fresh keys,
  which reproduces dict semantics for the operations the code performs.
-/
import Mathlib

namespace ClipSyncer

/-! ## Bytes, UTF-8 and hex

`str.encode('utf-8')` / `bytes.decode('utf-8')`: the standard UTF-8
encoding of unicode code points, embedded over `List Nat` (each element a
byte value `< 256`). -/

/-- UTF-8 encoding of a single unicode code point (1–4 bytes). -/
def utf8EncodeChar (n : Nat) : List Nat :=
  if n < 0x80 then [n]
  else if n < 0x800 then [0xC0 + n / 64, 0x80 + n % 64]
  else if n < 0x10000 then [0xE0 + n / 4096, 0x80 + (n / 64) % 64, 0x80 + n % 64]
  else [0xF0 + n / 262144, 0x80 + (n / 4096) % 64, 0x80 + (n / 64) % 64, 0x80 + n % 64]

/-- UTF-8 encoding of a character sequence. -/
def utf8EncodeChars : List Char → List Nat
  | [] => []
  | c :: cs => utf8EncodeChar c.toNat ++ utf8EncodeChars cs

/-- `s.encode('utf-8')`. -/
def utf8Encode (s : String) : List Nat :=
  utf8EncodeChars s.data

/-- A UTF-8 continuation byte is in `[0x80, 0xC0)`. -/
def isContByte (b : Nat) : Bool :=
  0x80 ≤ b && b < 0xC0

/-- Turn a decoded code point into a `Char`, failing on values that are not
valid unicode scalar values (surrogates, out of range). -/
def mkChar (n : Nat) : Option Char :=
  if n.isValidChar then some (Char.ofNat n) else none

/-- Decode one UTF-8-encoded code point: returns the code point and the
remaining bytes, or `none` on a malformed leading sequence. -/
def utf8DecodeStep (b : Nat) (rest : List Nat) : Option (Nat × List Nat) :=
  if b < 0x80 then some (b, rest)
  else if b < 0xC0 then none
  else if b < 0xE0 then
    match rest with
    | b1 :: rest2 =>
      if isContByte b1 then some ((b - 0xC0) * 64 + (b1 - 0x80), rest2) else none
    | [] => none
  else if b < 0xF0 then
    match rest with
    | b1 :: b2 :: rest2 =>
      if isContByte b1 && isContByte b2 then
        some ((b - 0xE0) * 4096 + (b1 - 0x80) * 64 + (b2 - 0x80), rest2)
      else none
    | _ => none
  else if b < 0xF8 then
    match rest with
    | b1 :: b2 :: b3 :: rest2 =>
      if isContByte b1 && isContByte b2 && isContByte b3 then
        some ((b - 0xF0) * 262144 + (b1 - 0x80) * 4096 + (b2 - 0x80) * 64 +
          (b3 - 0x80), rest2)
      else none
    | _ => none
  else none

/-- UTF-8 decoding loop; the fuel only bounds the number of decoded
characters (one byte at least is consumed per step, so the byte count is
always enough fuel). -/
def utf8DecodeAux : Nat → List Nat → Option (List Char)
  | _, [] => some []
  | 0, _ :: _ => none
  | fuel + 1, b :: rest =>
    match utf8DecodeStep b rest with
    | some (n, rest2) =>
      match mkChar n, utf8DecodeAux fuel rest2 with
      | some ch, some cs => some (ch :: cs)
      | _, _ => none
    | none => none

/-- UTF-8 decoding of a byte sequence into characters; `none` on malformed
input. -/
def utf8DecodeChars (l : List Nat) : Option (List Char) :=
  utf8DecodeAux l.length l

/-- `bytes.decode('utf-8')` producing a `String`. -/
def utf8Decode (l : List Nat) : Option String :=
  (utf8DecodeChars l).map fun cs => ⟨cs⟩

/-- Lowercase hex characters. -/
def hexChars : List Char :=
  "0123456789abcdef".data

/-- Two lowercase hex digits of a byte. -/
def byteToHex (b : Nat) : List Char :=
  [hexChars.getD (b / 16 % 16) '0', hexChars.getD (b % 16) '0']

/-- Lowercase hex string of a byte sequence (`hashlib`'s `hexdigest()`). -/
def bytesToHex (l : List Nat) : String :=
  ⟨l.foldr (fun b acc => byteToHex b ++ acc) []⟩

/-! ## SHA-256 (`hashlib.sha256`)

Word-level arithmetic on `Nat` with explicit reduction `% 2^32`. All
recursion is structural so concrete hashes evaluate inside the kernel. -/

/-- Reduce to a 32-bit word. -/
def w32 (n : Nat) : Nat := n % 4294967296

/-- 32-bit right rotation. -/
def rotr32 (x n : Nat) : Nat := w32 ((x >>> n) ||| (x <<< (32 - n)))

/-- SHA-256 round constants. -/
def sha256K : List Nat :=
  [1116352408, 1899447441, 3049323471, 3921009573, 961987163, 1508970993,
   2453635748, 2870763221, 3624381080, 310598401, 607225278, 1426881987,
   1925078388, 2162078206, 2614888103, 3248222580, 3835390401, 4022224774,
   264347078, 604807628, 770255983, 1249150122, 1555081692, 1996064986,
   2554220882, 2821834349, 2952996808, 3210313671, 3336571891, 3584528711,
   113926993, 338241895, 666307205, 773529912, 1294757372, 1396182291,
   1695183700, 1986661051, 2177026350, 2456956037, 2730485921, 2820302411,
   3259730800, 3345764771, 3516065817, 3600352804, 4094571909, 275423344,
   430227734, 506948616, 659060556, 883997877, 958139571, 1322822218,
   1537002063, 1747873779, 1955562222, 2024104815, 2227730452, 2361852424,
   2428436474, 2756734187, 3204031479, 3329325298]

/-- SHA-256 initial hash value. -/
def sha256H0 : List Nat :=
  [1779033703, 3144134277, 1013904242, 2773480762,
   1359893119, 2600822924, 528734635, 1541459225]

/-- Big-endian byte decomposition of `n` into `k` bytes. -/
def toBytesBE (k : Nat) (n : Nat) : List Nat :=
  (List.range k).map fun i => (n >>> (8 * (k - 1 - i))) % 256

/-- SHA-256 message padding: `0x80`, zero bytes up to 56 mod 64, then the
bit length as 8 big-endian bytes. -/
def sha256Pad (msg : List Nat) : List Nat :=
  msg ++ [0x80] ++ List.replicate ((119 - msg.length % 64) % 64) 0 ++
    toBytesBE 8 (msg.length * 8)

/-- Split into 64-byte blocks (fuel-driven structural recursion). -/
def chunks64Aux : Nat → List Nat → List (List Nat)
  | 0, _ => []
  | _, [] => []
  | fuel + 1, l => l.take 64 :: chunks64Aux fuel (l.drop 64)

/-- Split into 64-byte blocks. -/
def chunks64 (l : List Nat) : List (List Nat) :=
  chunks64Aux (l.length + 1) l

/-- Big-endian 32-bit word from 4 bytes of a block. -/
def wordAt (block : List Nat) (i : Nat) : Nat :=
  block.getD (4 * i) 0 * 16777216 + block.getD (4 * i + 1) 0 * 65536 +
    block.getD (4 * i + 2) 0 * 256 + block.getD (4 * i + 3) 0

/-- SHA-256 small sigma 0. -/
def ssig0 (x : Nat) : Nat := rotr32 x 7 ^^^ rotr32 x 18 ^^^ (x >>> 3)

/-- SHA-256 small sigma 1. -/
def ssig1 (x : Nat) : Nat := rotr32 x 17 ^^^ rotr32 x 19 ^^^ (x >>> 10)

/-- SHA-256 big sigma 0. -/
def bsig0 (x : Nat) : Nat := rotr32 x 2 ^^^ rotr32 x 13 ^^^ rotr32 x 22

/-- SHA-256 big sigma 1. -/
def bsig1 (x : Nat) : Nat := rotr32 x 6 ^^^ rotr32 x 11 ^^^ rotr32 x 25

/-- Extend the 16 message words to 64 (appending one word per step). -/
def extendW : Nat → List Nat → List Nat
  | 0, ws => ws
  | n + 1, ws =>
    extendW n (ws ++ [w32 (ssig1 (ws.getD (ws.length - 2) 0) +
      ws.getD (ws.length - 7) 0 + ssig0 (ws.getD (ws.length - 15) 0) +
      ws.getD (ws.length - 16) 0)])

/-- One SHA-256 compression round on the 8-word working state. -/
def sha256Round (st : List Nat) (k w : Nat) : List Nat :=
  let a := st.getD 0 0
  let b := st.getD 1 0
  let c := st.getD 2 0
  let d := st.getD 3 0
  let e := st.getD 4 0
  let f := st.getD 5 0
  let g := st.getD 6 0
  let h := st.getD 7 0
  let t1 := w32 (h + bsig1 e + ((e &&& f) ^^^ ((4294967295 - e) &&& g)) + k + w)
  let t2 := w32 (bsig0 a + ((a &&& b) ^^^ (a &&& c) ^^^ (b &&& c)))
  [w32 (t1 + t2), a, b, c, w32 (d + t1), e, f, g]

/-- Run the 64 compression rounds. -/
def sha256Rounds : List Nat → List Nat → List Nat → List Nat
  | st, k :: ks, w :: ws => sha256Rounds (sha256Round st k w) ks ws
  | st, _, _ => st

/-- Process one 64-byte block into the running hash. -/
def sha256Block (hs : List Nat) (block : List Nat) : List Nat :=
  let ws := extendW 48 ((List.range 16).map (wordAt block))
  let st := sha256Rounds hs sha256K ws
  (List.range 8).map fun i => w32 (hs.getD i 0 + st.getD i 0)

/-- SHA-256 digest (32 bytes) of a byte sequence. -/
def sha256Bytes (msg : List Nat) : List Nat :=
  let hs := (chunks64 (sha256Pad msg)).foldl sha256Block sha256H0
  hs.foldr (fun h acc => toBytesBE 4 h ++ acc) []

/-! ## ClipboardEntry and ClipboardHistory (`src/core/clipboard/history.py`) -/

/-- `ClipboardEntry.calculate_hash`: SHA-256 hex digest of the UTF-8 bytes
of the content. -/
def calculate_hash (content : String) : String :=
  bytesToHex (sha256Bytes (utf8Encode content))

/-- `ClipboardEntry`: one clipboard history entry. Timestamps are modelled
as `Nat` ticks; `metadata` as a string-keyed association list. -/
structure ClipboardEntry where
  content : String
  timestamp : Nat
  content_hash : String
  category : String := "text"
  metadata : List (String × String) := []
deriving DecidableEq, Repr

/-- `ClipboardEntry.__post_init__`: computes the hash from the content when
an empty (falsy) hash is supplied. -/
def mkEntry (content : String) (timestamp : Nat) (content_hash : String)
    (category : String) : ClipboardEntry :=
  { content := content, timestamp := timestamp,
    content_hash := if content_hash = "" then calculate_hash content else content_hash,
    category := category }

/-! Python `dict[str, entry]` as an association list: first-match lookup,
assignment replaces in place an existing key and appends a fresh one,
`del` removes the (unique, if the dict was well formed) binding. -/

/-- Dict lookup (`d[k]` / `k in d`). -/
def dictGet (d : List (String × ClipboardEntry)) (k : String) : Option ClipboardEntry :=
  match d with
  | [] => none
  | (k', v) :: t => if k' = k then some v else dictGet t k

/-- Dict assignment `d[k] = v`. -/
def dictSet (d : List (String × ClipboardEntry)) (k : String) (v : ClipboardEntry) :
    List (String × ClipboardEntry) :=
  match d with
  | [] => [(k, v)]
  | (k', v') :: t => if k' = k then (k, v) :: t else (k', v') :: dictSet t k v

/-- Dict deletion `del d[k]` (removes the first binding of `k`). -/
def dictRemove (d : List (String × ClipboardEntry)) (k : String) :
    List (String × ClipboardEntry) :=
  match d with
  | [] => []
  | (k', v') :: t => if k' = k then t else (k', v') :: dictRemove t k

/-- `list.remove(existing)` where `ClipboardEntry.__eq__` compares by
`content_hash`: removes the first entry with the given hash. -/
def removeFirstByHash (l : List ClipboardEntry) (h : String) : List ClipboardEntry :=
  match l with
  | [] => []
  | e :: t => if e.content_hash = h then t else e :: removeFirstByHash t h

/-- `ClipboardHistory`: bounded deduplicated in-memory store. The `_entries`
sequence is newest first; `_hash_index` is the hash → entry dict. -/
structure ClipboardHistory where
  max_size : Nat := 1000
  dedupe_enabled : Bool := true
  entries : List ClipboardEntry := []
  hash_index : List (String × ClipboardEntry) := []
deriving DecidableEq, Repr

/-- Python's `str.strip` whitespace set (the ASCII part; CPython also
strips some rare unicode space characters, which none of the checked
properties exercise). -/
def isPyWhitespace (c : Char) : Bool :=
  c = ' ' || c = '\t' || c = '\n' || c = '\r' || c = '\x0b' || c = '\x0c'

/-- `str.strip()`: drop leading and trailing whitespace. -/
def pyStrip (l : List Char) : List Char :=
  ((l.dropWhile isPyWhitespace).reverse.dropWhile isPyWhitespace).reverse

/-- Python `sub in s`: substring containment. -/
def containsSub (needle : List Char) : List Char → Bool
  | [] => decide (needle = [])
  | c :: t => needle.isPrefixOf (c :: t) || containsSub needle t

/-- Python `s.split(sep)` for a one-character separator. -/
def splitOnChar (sep : Char) : List Char → List (List Char)
  | [] => [[]]
  | c :: t =>
    let r := splitOnChar sep t
    if c = sep then [] :: r
    else
      match r with
      | [] => [[c]]
      | h :: rt => (c :: h) :: rt

/-- `ClipboardHistory._detect_category`: strips the content, then checks
URL prefixes, Windows path markers, and a single-`@`-with-dot email shape,
in that order. -/
def detect_category (content : String) : String :=
  let c := pyStrip content.data
  if ("http://".data.isPrefixOf c) || ("https://".data.isPrefixOf c) ||
      ("ftp://".data.isPrefixOf c) then
    "url"
  else if containsSub [':', '\\'] c || ['\\', '\\'].isPrefixOf c then
    "file_path"
  else if containsSub ['@'] c && containsSub ['.'] c then
    let parts := splitOnChar '@' c
    if parts.length = 2 && containsSub ['.'] (parts.getD 1 []) then "email" else "text"
  else "text"

/-- `ClipboardHistory.add_entry`. Returns `((added, removed_entry), store)`.
The Python code mutates the existing entry's timestamp in place on the
dedupe path; since the same object is referenced from both the list and the
dict, the functional translation updates both. -/
def add_entry (h : ClipboardHistory) (content : String) (timestamp : Nat) :
    (Bool × Option ClipboardEntry) × ClipboardHistory :=
  if content = "" then ((false, none), h)
  else
    let category := detect_category content
    let entry : ClipboardEntry :=
      { content := content, timestamp := timestamp,
        content_hash := calculate_hash content, category := category }
    match hDup : if h.dedupe_enabled then dictGet h.hash_index entry.content_hash else none with
    | some existing =>
      -- duplicate: move existing entry to the front, update its timestamp
      -- (the in-place timestamp write is visible through the dict binding
      -- that aliases the same object, hence the dictSet)
      let existing' := { existing with timestamp := timestamp }
      ((false, none),
        { h with
          entries := existing' :: removeFirstByHash h.entries existing.content_hash,
          hash_index := dictSet h.hash_index entry.content_hash existing' })
    | none =>
      let entries1 := entry :: h.entries
      let index1 := dictSet h.hash_index entry.content_hash entry
      if entries1.length > h.max_size then
        let removed := entries1.getLast (by simp [entries1])
        ((true, some removed),
          { h with entries := entries1.dropLast,
                   hash_index := dictRemove index1 removed.content_hash })
      else
        ((true, none), { h with entries := entries1, hash_index := index1 })

/-- The eviction loop of `ClipboardHistory.import_entry`:
`while len(entries) > max_size: pop(0); del index[popped.hash]`. -/
def evictFromHead (max_size : Nat) :
    List ClipboardEntry → List (String × ClipboardEntry) →
    List ClipboardEntry × List (String × ClipboardEntry)
  | [], idx => ([], idx)
  | e :: rest, idx =>
    if rest.length + 1 > max_size then
      evictFromHead max_size rest (dictRemove idx e.content_hash)
    else (e :: rest, idx)

/-- `ClipboardHistory.import_entry`: skip on duplicate hash, otherwise
append at the tail and evict from the head while over `max_size`. -/
def import_entry (h : ClipboardHistory) (e : ClipboardEntry) :
    Bool × ClipboardHistory :=
  if e.content_hash = "" then (false, h)
  else if (dictGet h.hash_index e.content_hash).isSome then (false, h)
  else
    let r := evictFromHead h.max_size (h.entries ++ [e])
      (dictSet h.hash_index e.content_hash e)
    (true, { h with entries := r.1, hash_index := r.2 })

/-- `ClipboardHistory._rebuild_hash_index`. -/
def rebuildIndex (entries : List ClipboardEntry) : List (String × ClipboardEntry) :=
  entries.foldl (fun d e => dictSet d e.content_hash e) []

/-- The keep-first-occurrence fold of `ClipboardHistory.remove_duplicates`. -/
def dedupKeepFirst (seen : List String) :
    List ClipboardEntry → List ClipboardEntry × Nat
  | [] => ([], 0)
  | e :: rest =>
    if e.content_hash ∈ seen then
      let r := dedupKeepFirst seen rest
      (r.1, r.2 + 1)
    else
      let r := dedupKeepFirst (e.content_hash :: seen) rest
      (e :: r.1, r.2)

/-- `ClipboardHistory.remove_duplicates`: returns `(removed_count, store)`. -/
def remove_duplicates (h : ClipboardHistory) : Nat × ClipboardHistory :=
  if ¬h.dedupe_enabled then (0, h)
  else
    let r := dedupKeepFirst [] h.entries
    (r.2, { h with entries := r.1, hash_index := rebuildIndex r.1 })

/-- `ClipboardHistory.cleanup_old_entries`: keeps entries with
`timestamp > cutoff` (the caller computes `cutoff = now - days`) and
rebuilds the index; returns `(removed_count, store)`. -/
def cleanup_old_entries (h : ClipboardHistory) (cutoff : Nat) : Nat × ClipboardHistory :=
  let kept := h.entries.filter fun e => cutoff < e.timestamp
  (h.entries.length - kept.length,
    { h with entries := kept, hash_index := rebuildIndex kept })

/-- `ClipboardHistory.clear`. -/
def clear (h : ClipboardHistory) : ClipboardHistory :=
  { h with entries := [], hash_index := [] }

/-- `ClipboardHistory.has_entry`. -/
def has_entry (h : ClipboardHistory) (content_hash : String) : Bool :=
  (dictGet h.hash_index content_hash).isSome

/-- The decoded shape of a `to_json`/`from_json` document (after JSON
parsing; `from_json` trusts whatever entries and sizes the document holds). -/
structure HistoryJson where
  entries : List ClipboardEntry
  max_size : Nat := 1000
  dedupe_enabled : Bool := true
deriving DecidableEq, Repr

/-- `ClipboardHistory.from_json`: replaces the store's fields with the
document's, appending each entry to the sequence and indexing it; no size
bound is enforced. -/
def from_json (_h : ClipboardHistory) (j : HistoryJson) : ClipboardHistory :=
  { max_size := j.max_size, dedupe_enabled := j.dedupe_enabled,
    entries := j.entries, hash_index := rebuildIndex j.entries }

/-! ## GitHubSyncService real-time sync (`src/services/sync/github_sync.py`)

The remote repository and the REST API are the service's boundary; the model
keeps the single remote file `sync/latest.json` as an optional content
string. GitHub identifies file revisions by a content digest (the blob
SHA); the model passes the digest function `sha` as a parameter, assumed
injective where a theorem needs distinct contents to have distinct SHAs. -/

/-- The state visible to the real-time sync methods: the remote
`sync/latest.json` content (if the file exists), whether the service is
enabled (connected with a resolved repo), and `_last_sync_sha`. -/
structure SyncState where
  remoteLatest : Option String
  enabled : Bool
  last_sync_sha : Option String
deriving DecidableEq, Repr

/-- `GitHubSyncService.push_latest`: update the file if it exists (recording
`existing_file.sha`, the pre-update SHA — exactly as the source does),
otherwise create it and record the created content's SHA. Returns
`(success, state)`. -/
def push_latest (sha : String → String) (data : String) (s : SyncState) :
    Bool × SyncState :=
  if ¬s.enabled then (false, s)
  else
    match s.remoteLatest with
    | some existing =>
      (true, { s with remoteLatest := some data,
                      last_sync_sha := some (sha existing) })
    | none =>
      (true, { s with remoteLatest := some data,
                      last_sync_sha := some (sha data) })

/-- `GitHubSyncService.pull_latest`: fetch the file; return `none` when it
does not exist (404) or when its SHA equals `_last_sync_sha`; otherwise
return the content and record its SHA. -/
def pull_latest (sha : String → String) (s : SyncState) :
    Option String × SyncState :=
  if ¬s.enabled then (none, s)
  else
    match s.remoteLatest with
    | none => (none, s)
    | some c =>
      if s.last_sync_sha = some (sha c) then (none, s)
      else (some c, { s with last_sync_sha := some (sha c) })

/-- A write to the remote file performed outside this service (another
device updating `sync/latest.json`). -/
def remoteWrite (c : String) (s : SyncState) : SyncState :=
  { s with remoteLatest := some c }

/-! ## ConfigManager (`src/utils/config_manager.py`)

Configuration values are the YAML/JSON-like scalars and nested maps the
manager actually stores. -/

/-- A configuration value: scalar or nested string-keyed map. -/
inductive CVal where
  | int (n : Int)
  | str (s : String)
  | bool (b : Bool)
  | null
  | map (m : List (String × CVal))

/-- Dict lookup inside a configuration map. -/
def cvalGet (m : List (String × CVal)) (k : String) : Option CVal :=
  match m with
  | [] => none
  | (k', v) :: t => if k' = k then some v else cvalGet t k

/-- Dict assignment inside a configuration map. -/
def cvalSet (m : List (String × CVal)) (k : String) (v : CVal) :
    List (String × CVal) :=
  match m with
  | [] => [(k, v)]
  | (k', v') :: t => if k' = k then (k, v) :: t else (k', v') :: cvalSet t k v

/-- `ConfigManager._create_default_config`: the hard-coded default map. -/
def defaultConfig : CVal :=
  .map
    [("clipboard", .map
        [("check_interval", .int 500),
         ("max_history_size", .int 1000),
         ("auto_start", .bool true)]),
     ("encryption", .map
        [("enabled", .bool true),
         ("algorithm", .str "AES-256-GCM")]),
     ("storage", .map
        [("retention_days", .int 30),
         ("backup_interval", .int 86400),
         ("database_path", .null)]),
     ("github", .map
        [("enabled", .bool false),
         ("repository", .str ""),
         ("token", .str ""),
         ("sync_interval", .int 3600),
         ("auto_sync", .bool false)]),
     ("cleanup", .map
        [("enabled", .bool true),
         ("duplicate_removal", .bool true),
         ("cleanup_interval", .int 3600)]),
     ("ui", .map
        [("show_notifications", .bool true),
         ("minimize_to_tray", .bool true),
         ("start_minimized", .bool false),
         ("theme", .str "light")]),
     ("logging", .map
        [("level", .str "INFO"),
         ("file_logging", .bool true),
         ("max_log_size", .int 10485760),
         ("max_log_files", .int 5)])]

/-- `ConfigManager.get`: walk the dot-separated key (already split into
segments); return `default` as soon as a segment is missing or the current
value is not a map. -/
def configGet (default : CVal) : CVal → List String → CVal
  | c, [] => c
  | .map m, k :: rest =>
    match cvalGet m k with
    | some v => configGet default v rest
    | none => default
  | _, _ :: _ => default

/-- `ConfigManager.set`: navigate to the parent, creating intermediate maps
for missing keys; `none` models the uncaught `TypeError` Python raises when
navigation or the final assignment hits a non-map value. -/
def configSet : CVal → List String → CVal → Option CVal
  | c, [k], v =>
    match c with
    | .map m => some (.map (cvalSet m k v))
    | _ => none
  | c, k :: k' :: rest, v =>
    match c with
    | .map m =>
      let child := (cvalGet m k).getD (.map [])
      match configSet child (k' :: rest) v with
      | some child' => some (.map (cvalSet m k child'))
      | none => none
    | _ => none
  | _, [], _ => none

/-! ## Base64 (`base64.b64encode` / `base64.b64decode`) -/

/-- The base64 alphabet. -/
def b64Alphabet : List Char :=
  ['A', 'B', 'C', 'D', 'E', 'F', 'G', 'H', 'I', 'J', 'K', 'L', 'M',
   'N', 'O', 'P', 'Q', 'R', 'S', 'T', 'U', 'V', 'W', 'X', 'Y', 'Z',
   'a', 'b', 'c', 'd', 'e', 'f', 'g', 'h', 'i', 'j', 'k', 'l', 'm',
   'n', 'o', 'p', 'q', 'r', 's', 't', 'u', 'v', 'w', 'x', 'y', 'z',
   '0', '1', '2', '3', '4', '5', '6', '7', '8', '9', '+', '/']

/-- The alphabet character of a 6-bit group. -/
def b64Char (n : Nat) : Char := b64Alphabet.getD n '='

/-- Position of a character in the alphabet. -/
def b64IndexAux (c : Char) : List Char → Nat → Option Nat
  | [], _ => none
  | x :: t, i => if x = c then some i else b64IndexAux c t (i + 1)

/-- Position of a character in the alphabet (`none` for `=` and foreign
characters). -/
def b64Index (c : Char) : Option Nat := b64IndexAux c b64Alphabet 0

/-- Base64 encoding of a byte sequence, with `=` padding. -/
def b64encodeBytes : List Nat → List Char
  | [] => []
  | [a] => [b64Char (a / 4), b64Char (a % 4 * 16), '=', '=']
  | [a, b] => [b64Char (a / 4), b64Char (a % 4 * 16 + b / 16), b64Char (b % 16 * 4), '=']
  | a :: b :: c :: rest =>
    b64Char (a / 4) :: b64Char (a % 4 * 16 + b / 16) ::
      b64Char (b % 16 * 4 + c / 64) :: b64Char (c % 64) :: b64encodeBytes rest

/-- `base64.b64encode(...).decode('ascii')`. -/
def b64encode (l : List Nat) : String := ⟨b64encodeBytes l⟩

/-- Base64 decoding; `none` on malformed input (`=` padding is accepted
only in the final 4-character group). -/
def b64decodeChars : List Char → Option (List Nat)
  | [] => some []
  | c0 :: c1 :: c2 :: c3 :: rest =>
    if c3 = '=' then
      match rest with
      | [] =>
        if c2 = '=' then do
          let n0 ← b64Index c0
          let n1 ← b64Index c1
          if n1 % 16 = 0 then some [n0 * 4 + n1 / 16] else none
        else do
          let n0 ← b64Index c0
          let n1 ← b64Index c1
          let n2 ← b64Index c2
          if n2 % 4 = 0 then some [n0 * 4 + n1 / 16, n1 % 16 * 16 + n2 / 4] else none
      | _ :: _ => none
    else do
      let n0 ← b64Index c0
      let n1 ← b64Index c1
      let n2 ← b64Index c2
      let n3 ← b64Index c3
      let bs ← b64decodeChars rest
      some ((n0 * 4 + n1 / 16) :: (n1 % 16 * 16 + n2 / 4) :: (n2 % 4 * 64 + n3) :: bs)
  | _ => none

/-- `base64.b64decode`. -/
def b64decode (s : String) : Option (List Nat) := b64decodeChars s.data

/-! ## AES-256-GCM (the `cryptography` AES/GCM cipher used by
`EncryptionManager`), implemented from the FIPS-197 / SP 800-38D
algorithms over `Nat` bytes. -/

/-- Multiplication by `x` in GF(2^8) modulo the AES polynomial `0x11B`. -/
def xtime (b : Nat) : Nat :=
  if b < 128 then b * 2 else b * 2 ^^^ 0x11B

/-- GF(2^8) product, 8 shift-and-add steps. -/
def gfMul8Aux : Nat → Nat → Nat → Nat → Nat
  | 0, _, _, acc => acc
  | f + 1, a, b, acc =>
    gfMul8Aux f (xtime a) (b / 2) (if b % 2 = 1 then acc ^^^ a else acc)

/-- GF(2^8) product. -/
def gfMul8 (a b : Nat) : Nat := gfMul8Aux 8 a b 0

/-- GF(2^8) power. -/
def gfPow8 : Nat → Nat → Nat
  | _, 0 => 1
  | a, n + 1 => gfMul8 a (gfPow8 a n)

/-- 8-bit left rotation. -/
def rotl8 (x n : Nat) : Nat := (x <<< n ||| x >>> (8 - n)) % 256

/-- The AES S-box: multiplicative inverse (`b^254`) followed by the affine
transformation. -/
def sbox (b : Nat) : Nat :=
  let inv := gfPow8 b 254
  inv ^^^ rotl8 inv 1 ^^^ rotl8 inv 2 ^^^ rotl8 inv 3 ^^^ rotl8 inv 4 ^^^ 0x63

/-- S-box applied to each byte of a word. -/
def subWord (w : List Nat) : List Nat := w.map sbox

/-- One-byte left rotation of a 4-byte word. -/
def rotWord : List Nat → List Nat
  | [a, b, c, d] => [b, c, d, a]
  | w => w

/-- Bytewise XOR of two words. -/
def xorWord (a b : List Nat) : List Nat := List.zipWith (· ^^^ ·) a b

/-- The AES round constant word `[x^(i-1), 0, 0, 0]`. -/
def rcon (i : Nat) : List Nat := [gfPow8 2 (i - 1), 0, 0, 0]

/-- AES key expansion: append one more word to the schedule per step. -/
def expandKeyAux (nk : Nat) : Nat → List (List Nat) → List (List Nat)
  | 0, ws => ws
  | n + 1, ws =>
    let i := ws.length
    let prev := ws.getD (i - 1) []
    let temp :=
      if i % nk = 0 then xorWord (subWord (rotWord prev)) (rcon (i / nk))
      else if 6 < nk ∧ i % nk = 4 then subWord prev
      else prev
    expandKeyAux nk n (ws ++ [xorWord (ws.getD (i - nk) []) temp])

/-- AES-256 key expansion: 60 words from a 32-byte key. -/
def expandKey256 (key : List Nat) : List (List Nat) :=
  let w0 := (List.range 8).map fun i =>
    [key.getD (4 * i) 0, key.getD (4 * i + 1) 0,
     key.getD (4 * i + 2) 0, key.getD (4 * i + 3) 0]
  expandKeyAux 8 52 w0

/-- The 16 bytes of round key `r`. -/
def roundKeyBytes (ws : List (List Nat)) (r : Nat) : List Nat :=
  ws.getD (4 * r) [] ++ ws.getD (4 * r + 1) [] ++
    ws.getD (4 * r + 2) [] ++ ws.getD (4 * r + 3) []

/-- AES SubBytes on the 16-byte state. -/
def subBytes (st : List Nat) : List Nat := st.map sbox

/-- AES ShiftRows on the column-major flat state. -/
def shiftRows (st : List Nat) : List Nat :=
  [0, 5, 10, 15, 4, 9, 14, 3, 8, 13, 2, 7, 12, 1, 6, 11].map fun i => st.getD i 0

/-- AES MixColumns on one 4-byte column. -/
def mixCol : List Nat → List Nat
  | [a, b, c, d] =>
    [gfMul8 2 a ^^^ gfMul8 3 b ^^^ c ^^^ d,
     a ^^^ gfMul8 2 b ^^^ gfMul8 3 c ^^^ d,
     a ^^^ b ^^^ gfMul8 2 c ^^^ gfMul8 3 d,
     gfMul8 3 a ^^^ b ^^^ c ^^^ gfMul8 2 d]
  | col => col

/-- AES MixColumns on the 16-byte state. -/
def mixColumns (st : List Nat) : List Nat :=
  mixCol (st.take 4) ++ mixCol ((st.drop 4).take 4) ++
    mixCol ((st.drop 8).take 4) ++ mixCol (st.drop 12)

/-- AES AddRoundKey. -/
def addRoundKey (st rk : List Nat) : List Nat := List.zipWith (· ^^^ ·) st rk

/-- AES-256 block encryption: initial AddRoundKey, 13 full rounds, final
round without MixColumns. -/
def aesEncryptBlock (key block : List Nat) : List Nat :=
  let ws := expandKey256 key
  let st0 := addRoundKey block (roundKeyBytes ws 0)
  let stMid := (List.range 13).foldl
    (fun st r => addRoundKey (mixColumns (shiftRows (subBytes st))) (roundKeyBytes ws (r + 1)))
    st0
  addRoundKey (shiftRows (subBytes stMid)) (roundKeyBytes ws 14)

/-- Big-endian integer value of a byte sequence. -/
def bytesToNatBE (l : List Nat) : Nat := l.foldl (fun acc b => acc * 256 + b) 0

/-- Split into blocks of `sz` bytes (fuel-driven structural recursion). -/
def chunksAux (sz : Nat) : Nat → List Nat → List (List Nat)
  | 0, _ => []
  | _, [] => []
  | fuel + 1, l => l.take sz :: chunksAux sz fuel (l.drop sz)

/-- GF(2^128) product in the GCM convention (MSB-first bits of `x`,
right-shifting `v` with reduction by `0xE1 << 120`). -/
def gf128MulAux : Nat → Nat → Nat → Nat → Nat
  | 0, _, _, z => z
  | f + 1, x, v, z =>
    let z' := if (x >>> f) % 2 = 1 then z ^^^ v else z
    let v' := if v % 2 = 1 then v >>> 1 ^^^ (0xE1 <<< 120) else v >>> 1
    gf128MulAux f x v' z'

/-- GF(2^128) product. -/
def gf128Mul (x y : Nat) : Nat := gf128MulAux 128 x y 0

/-- GHASH over a list of 128-bit blocks. -/
def ghashBlocks (h : Nat) (blocks : List Nat) : Nat :=
  blocks.foldl (fun y b => gf128Mul (y ^^^ b) h) 0

/-- A byte sequence as zero-padded 128-bit blocks. -/
def bytesToBlocks (l : List Nat) : List Nat :=
  (chunksAux 16 (l.length + 1) l).map fun c =>
    bytesToNatBE (c ++ List.replicate (16 - c.length) 0)

/-- The GCM hash subkey `H = AES_K(0^128)`. -/
def gcmH (key : List Nat) : Nat :=
  bytesToNatBE (aesEncryptBlock key (List.replicate 16 0))

/-- The GCM pre-counter block `J0`. -/
def gcmJ0 (key nonce : List Nat) : List Nat :=
  if nonce.length = 12 then nonce ++ [0, 0, 0, 1]
  else toBytesBE 16 (ghashBlocks (gcmH key) (bytesToBlocks nonce ++ [nonce.length * 8]))

/-- The GCM authentication tag over a ciphertext (no additional data):
`GHASH_H(C ‖ len) ⊕ AES_K(J0)`. -/
def gcmTag (key nonce ct : List Nat) : List Nat :=
  let s := ghashBlocks (gcmH key) (bytesToBlocks ct ++ [ct.length * 8])
  toBytesBE 16 (s ^^^ bytesToNatBE (aesEncryptBlock key (gcmJ0 key nonce)))

/-- Counter block `inc32^i(J0)`. -/
def ctrBlock (j0 : List Nat) (i : Nat) : List Nat :=
  j0.take 12 ++ toBytesBE 4 ((bytesToNatBE (j0.drop 12) + i) % 4294967296)

/-- Byte `i` of the GCM keystream (counters start at `inc32(J0)`). -/
def ksByte (key j0 : List Nat) (i : Nat) : Nat :=
  (aesEncryptBlock key (ctrBlock j0 (1 + i / 16))).getD (i % 16) 0 % 256

/-- CTR-mode XOR of a byte sequence with the keystream from offset `i`. -/
def ctrCryptAux (key j0 : List Nat) : Nat → List Nat → List Nat
  | _, [] => []
  | i, b :: rest => (b ^^^ ksByte key j0 i) :: ctrCryptAux key j0 (i + 1) rest

/-- GCM CTR encryption/decryption (self-inverse XOR stream). -/
def gcmCrypt (key nonce data : List Nat) : List Nat :=
  ctrCryptAux key (gcmJ0 key nonce) 0 data

/-! ## EncryptionManager (`src/core/encryption/manager.py`) -/

/-- The `{ciphertext, nonce, tag}` base64 dictionary returned by
`EncryptionManager.encrypt`. -/
structure EncryptedPayload where
  ciphertext : String
  nonce : String
  tag : String
deriving DecidableEq, Repr

/-- `EncryptionManager.encrypt`: UTF-8 encode, AES-256-GCM encrypt with a
fresh random 12-byte nonce (the nonce is a parameter here, `os.urandom(12)`
being the boundary), base64-encode ciphertext, nonce and tag. -/
def encrypt (key nonce : List Nat) (data : String) : EncryptedPayload :=
  let pt := utf8Encode data
  let ct := gcmCrypt key nonce pt
  { ciphertext := b64encode ct, nonce := b64encode nonce,
    tag := b64encode (gcmTag key nonce ct) }

/-- `EncryptionManager.decrypt`: base64-decode the three fields, verify the
GCM tag, decrypt, UTF-8 decode; `none` models the raised decryption
failure (tag mismatch or malformed input). -/
def decrypt (key : List Nat) (p : EncryptedPayload) : Option String :=
  match b64decode p.ciphertext, b64decode p.nonce, b64decode p.tag with
  | some ct, some nonce, some tag =>
    if gcmTag key nonce ct = tag then utf8Decode (gcmCrypt key nonce ct) else none
  | _, _, _ => none

/-! ## Statement-side definitions -/

/-- The hash index "exactly mirrors" the entry sequence: as a multiset it
is exactly one binding per entry, keyed by that entry's `content_hash` and
mapping to that entry. -/
def indexMirrors (h : ClipboardHistory) : Prop :=
  h.hash_index.Perm (h.entries.map fun e => (e.content_hash, e))

/-- The sequence length respects `max_size`. -/
def sizeBounded (h : ClipboardHistory) : Prop :=
  h.entries.length ≤ h.max_size

/-- The store invariant: the index mirrors the sequence, entry hashes are
pairwise distinct (a dict can hold only one binding per key), and the size
bound holds. -/
def HistoryInv (h : ClipboardHistory) : Prop :=
  indexMirrors h ∧ (h.entries.map (·.content_hash)).Nodup ∧ sizeBounded h

/-- The category-inference rules exactly as the specification sentence
states them, applied to the given character sequence as-is (no stripping):
`http://`, `https://` or `ftp://` prefix → `url`; contains `:\` or starts
with `\\` → `file_path`; exactly one `@` with a `.` somewhere after it →
`email`; otherwise `text`. -/
def specCategoryRules (c : List Char) : String :=
  if ("http://".data.isPrefixOf c) || ("https://".data.isPrefixOf c) ||
      ("ftp://".data.isPrefixOf c) then
    "url"
  else if containsSub [':', '\\'] c || ['\\', '\\'].isPrefixOf c then
    "file_path"
  else if c.count '@' = 1 ∧ containsSub ['.'] ((c.dropWhile (· ≠ '@')).drop 1) then
    "email"
  else "text"

/-! # Theorems -/

set_option maxRecDepth 20000

/-! ## Association-list (Python dict) lemmas -/

theorem dictGet_eq_none_iff (d : List (String × ClipboardEntry)) (k : String) :
    dictGet d k = none ↔ k ∉ d.map Prod.fst := by
  induction d with
  | nil => simp [dictGet]
  | cons p t ih =>
    obtain ⟨k', v⟩ := p
    by_cases hk : k' = k
    · subst hk; simp [dictGet]
    · simp [dictGet, hk, ih, Ne.symm hk]

theorem dictGet_isSome_iff (d : List (String × ClipboardEntry)) (k : String) :
    (dictGet d k).isSome = true ↔ k ∈ d.map Prod.fst := by
  rw [← Decidable.not_iff_not, ← dictGet_eq_none_iff]
  cases dictGet d k <;> simp

theorem dictGet_mem (d : List (String × ClipboardEntry)) (k : String)
    (v : ClipboardEntry) (h : dictGet d k = some v) : (k, v) ∈ d := by
  induction d with
  | nil => simp [dictGet] at h
  | cons p t ih =>
    obtain ⟨k', v'⟩ := p
    by_cases hk : k' = k
    · subst hk
      simp [dictGet] at h
      simp [h]
    · simp [dictGet, hk] at h
      exact List.mem_cons_of_mem _ (ih h)

theorem dictSet_fresh (d : List (String × ClipboardEntry)) (k : String)
    (v : ClipboardEntry) (hk : k ∉ d.map Prod.fst) :
    dictSet d k v = d ++ [(k, v)] := by
  induction d with
  | nil => simp [dictSet]
  | cons p t ih =>
    obtain ⟨k', v'⟩ := p
    simp only [List.map_cons, List.mem_cons] at hk
    push_neg at hk
    simp [dictSet, Ne.symm hk.1, ih hk.2]

theorem dictSet_perm (d : List (String × ClipboardEntry)) (k : String)
    (v : ClipboardEntry) : (dictSet d k v).Perm ((k, v) :: dictRemove d k) := by
  induction d with
  | nil => simp [dictSet, dictRemove]
  | cons p t ih =>
    obtain ⟨k', v'⟩ := p
    by_cases hk : k' = k
    · subst hk; simp [dictSet, dictRemove]
    · simp only [dictSet, dictRemove, if_neg hk]
      exact ((ih.cons _).trans (List.Perm.swap _ _ _))

theorem dictRemove_of_not_mem (d : List (String × ClipboardEntry)) (k : String)
    (hk : k ∉ d.map Prod.fst) : dictRemove d k = d := by
  induction d with
  | nil => rfl
  | cons p t ih =>
    obtain ⟨k', v'⟩ := p
    simp only [List.map_cons, List.mem_cons] at hk
    push_neg at hk
    simp [dictRemove, Ne.symm hk.1, ih hk.2]

theorem dictRemove_eq_filter (d : List (String × ClipboardEntry)) (k : String)
    (hnd : (d.map Prod.fst).Nodup) :
    dictRemove d k = d.filter (fun p => p.1 != k) := by
  induction d with
  | nil => rfl
  | cons p t ih =>
    obtain ⟨k', v'⟩ := p
    simp only [List.map_cons, List.nodup_cons] at hnd
    by_cases hk : k' = k
    · subst hk
      have : t.filter (fun p => p.1 != k') = t := by
        apply List.filter_eq_self.2
        intro p hp
        have : p.1 ≠ k' := fun he => hnd.1 (he ▸ List.mem_map_of_mem Prod.fst hp)
        simpa using this
      simp [dictRemove, this]
    · simp [dictRemove, hk, ih hnd.2]

theorem dictRemove_perm (d₁ d₂ : List (String × ClipboardEntry)) (k : String)
    (hp : d₁.Perm d₂) (hnd : (d₁.map Prod.fst).Nodup) :
    (dictRemove d₁ k).Perm (dictRemove d₂ k) := by
  have hnd₂ : (d₂.map Prod.fst).Nodup := ((hp.map Prod.fst).nodup_iff).1 hnd
  rw [dictRemove_eq_filter d₁ k hnd, dictRemove_eq_filter d₂ k hnd₂]
  exact hp.filter _

theorem dictRemove_append_left (d₁ d₂ : List (String × ClipboardEntry)) (k : String)
    (hk : k ∉ d₁.map Prod.fst) :
    dictRemove (d₁ ++ d₂) k = d₁ ++ dictRemove d₂ k := by
  induction d₁ with
  | nil => rfl
  | cons p t ih =>
    obtain ⟨k', v'⟩ := p
    simp only [List.map_cons, List.mem_cons] at hk
    push_neg at hk
    simp [dictRemove, Ne.symm hk.1, ih hk.2]

theorem map_removeFirstByHash (l : List ClipboardEntry) (k : String) :
    (removeFirstByHash l k).map (fun e => (e.content_hash, e)) =
      dictRemove (l.map fun e => (e.content_hash, e)) k := by
  induction l with
  | nil => rfl
  | cons e t ih =>
    by_cases hk : e.content_hash = k
    · simp [removeFirstByHash, dictRemove, hk]
    · simp [removeFirstByHash, dictRemove, hk, ih]

theorem map_hash_removeFirstByHash (l : List ClipboardEntry) (k : String) :
    (removeFirstByHash l k).map (·.content_hash) = (l.map (·.content_hash)).erase k := by
  induction l with
  | nil => rfl
  | cons e t ih =>
    by_cases hk : e.content_hash = k
    · subst hk; simp [removeFirstByHash]
    · rw [List.map_cons, List.erase_cons_tail (by simpa using hk)]
      simp [removeFirstByHash, hk, ih]

/-! ## Claim theorems: concrete store behaviour -/

/-- C3: with dedupe enabled and `max_size = 10`, adding `"hello"` at tick 0
then `"hello"` at tick 1 leaves one entry; the second call reports
`(added := false, evicted := none)`; the surviving entry's timestamp is the
second call's. -/
theorem dedupe_on_add_spec :
    (add_entry (add_entry { max_size := 10 } "hello" 0).2 "hello" 1).1 = (false, none) ∧
    (add_entry (add_entry { max_size := 10 } "hello" 0).2 "hello" 1).2.entries.length = 1 ∧
    ((add_entry (add_entry { max_size := 10 } "hello" 0).2 "hello" 1).2.entries.map
      (·.timestamp)) = [1] := by
  decide

/-- C4: with `max_size = 2`, adding `"a"`, `"b"`, `"c"` leaves the
newest-first contents `["c", "b"]`, and the third call reports
`added = true` with the `"a"` entry evicted. -/
theorem bounded_eviction_spec :
    ((add_entry (add_entry (add_entry { max_size := 2 } "a" 0).2 "b" 1).2 "c" 2).2.entries.map
      (·.content)) = ["c", "b"] ∧
    (add_entry (add_entry (add_entry { max_size := 2 } "a" 0).2 "b" 1).2 "c" 2).1.1 = true ∧
    ((add_entry (add_entry (add_entry { max_size := 2 } "a" 0).2 "b" 1).2 "c" 2).1.2.map
      (·.content)) = some "a" := by
  decide

/-! ## Claim theorems: configuration dot-path access -/

/-- C10: with the defaults loaded, `set("clipboard.check_interval.x", v)`
hits the scalar `500` while navigating and raises an uncaught `TypeError`
(modelled as `none`) instead of creating an intermediate map, while
`get` on the same dotted path returns the caller's default. -/
theorem config_set_scalar_typeerror_get_default (v d : CVal) :
    configSet defaultConfig ["clipboard", "check_interval", "x"] v = none ∧
    configGet d defaultConfig ["clipboard", "check_interval", "x"] = d :=
  ⟨rfl, rfl⟩

/-! ## Claim theorems: GitHub real-time sync -/

/-- C1 (failing-input evaluation): on the update path — the remote file
already holds `"old"` and `"new"` is pushed — `push_latest` succeeds and
overwrites the remote with `"new"`, but records the *pre-update* SHA
(`sha "old"`), not the resulting content SHA; consequently the immediately
following `pull_latest` against the unchanged remote re-reports the data
just pushed instead of "no change". -/
theorem push_latest_update_path_records_stale_sha :
    (push_latest id "new" ⟨some "old", true, none⟩).1 = true ∧
    (push_latest id "new" ⟨some "old", true, none⟩).2.remoteLatest = some "new" ∧
    (push_latest id "new" ⟨some "old", true, none⟩).2.last_sync_sha = some "old" ∧
    (push_latest id "new" ⟨some "old", true, none⟩).2.last_sync_sha ≠ some (id "new") ∧
    (pull_latest id (push_latest id "new" ⟨some "old", true, none⟩).2).1 = some "new" := by
  decide

/-- C8: with an enabled service, an existing remote file `c` not yet
marked as seen, the first `pull_latest` returns `c`; a second call against
the unchanged remote returns `none`; after the remote is rewritten to a
different content `c'`, the next call returns `c'`. The digest `sha` is
assumed injective (distinct contents have distinct blob SHAs). -/
theorem pull_latest_change_detection (sha : String → String)
    (hinj : Function.Injective sha) (s : SyncState) (c c' : String)
    (hen : s.enabled = true) (hrem : s.remoteLatest = some c)
    (hfresh : s.last_sync_sha ≠ some (sha c)) (hne : c' ≠ c) :
    (pull_latest sha s).1 = some c ∧
    (pull_latest sha (pull_latest sha s).2).1 = none ∧
    (pull_latest sha (remoteWrite c' (pull_latest sha (pull_latest sha s).2).2)).1 =
      some c' := by
  have hsha : some (sha c) ≠ some (sha c') := by
    intro hcc
    exact hne (hinj (Option.some_injective _ hcc)).symm
  simp [pull_latest, remoteWrite, hen, hrem, hfresh, hsha]

/-- Witness for C8 at a concrete service state. -/
theorem pull_latest_change_detection_witness :
    (pull_latest id ⟨some "a", true, none⟩).1 = some "a" ∧
    (pull_latest id (pull_latest id ⟨some "a", true, none⟩).2).1 = none ∧
    (pull_latest id (remoteWrite "b" (pull_latest id
      (pull_latest id ⟨some "a", true, none⟩).2).2)).1 = some "b" :=
  pull_latest_change_detection id (fun _ _ hab => hab) _ "a" "b" rfl rfl
    (by decide) (by decide)

/-! ## Category-inference lemmas -/

theorem containsSub_singleton (x : Char) (l : List Char) :
    containsSub [x] l = true ↔ x ∈ l := by
  induction l with
  | nil => simp [containsSub]
  | cons c t ih =>
    simp [containsSub, List.isPrefixOf, ih]

theorem splitOnChar_ne_nil (sep : Char) (l : List Char) : splitOnChar sep l ≠ [] := by
  cases l with
  | nil => simp [splitOnChar]
  | cons c t =>
    simp only [splitOnChar]
    by_cases hc : c = sep
    · simp [hc]
    · simp only [if_neg hc]
      cases splitOnChar sep t <;> simp

theorem splitOnChar_length (sep : Char) (l : List Char) :
    (splitOnChar sep l).length = l.count sep + 1 := by
  induction l with
  | nil => simp [splitOnChar]
  | cons c t ih =>
    by_cases hc : c = sep
    · subst hc
      simp [splitOnChar, List.count_cons, ih]
    · simp only [splitOnChar, if_neg hc]
      rcases hr : splitOnChar sep t with _ | ⟨h, rt⟩
      · exact absurd hr (splitOnChar_ne_nil sep t)
      · rw [hr] at ih
        simp only [List.length_cons] at ih ⊢
        rw [List.count_cons]
        simp [hc, ih]

theorem splitOnChar_count_zero (sep : Char) (l : List Char)
    (h : l.count sep = 0) : splitOnChar sep l = [l] := by
  induction l with
  | nil => rfl
  | cons c t ih =>
    rw [List.count_cons] at h
    have hc : c ≠ sep := by
      intro hc
      simp [hc] at h
    have ht : t.count sep = 0 := by omega
    simp [splitOnChar, hc, ih ht]

theorem splitOnChar_getD_one (sep : Char) (l : List Char) (h : l.count sep = 1) :
    (splitOnChar sep l).getD 1 [] = (l.dropWhile (fun c => c ≠ sep)).drop 1 := by
  induction l with
  | nil => simp at h
  | cons c t ih =>
    rw [List.count_cons] at h
    by_cases hc : c = sep
    · subst hc
      simp at h
      have ht : t.count c = 0 := by omega
      simp [splitOnChar, splitOnChar_count_zero c t ht, List.dropWhile]
    · simp [hc] at h
      have hlhs : (splitOnChar sep (c :: t)).getD 1 [] = (splitOnChar sep t).getD 1 [] := by
        simp only [splitOnChar, if_neg hc]
        rcases hr : splitOnChar sep t with _ | ⟨hh, rt⟩
        · exact absurd hr (splitOnChar_ne_nil sep t)
        · simp
      rw [hlhs, ih h]
      have : (c :: t).dropWhile (fun x => x ≠ sep) = t.dropWhile (fun x => x ≠ sep) := by
        simp [List.dropWhile, hc]
      rw [this]

/-- C9 counterexample: the code strips surrounding whitespace before
applying the rules, so on `" https://example.com"` the inference yields
`url` although the content does not begin with `http://`/`https://`/
`ftp://` (the claim's rules, applied verbatim, yield `text`). -/
theorem detect_category_strip_counterexample :
    detect_category " https://example.com" = "url" ∧
    specCategoryRules " https://example.com".data = "text" := by
  constructor <;> decide

/-- C9 (amended): the category inference applies exactly the claimed rules,
but to the whitespace-stripped content; on the claim's four examples
(which carry no surrounding whitespace) it gives `url`, `file_path`,
`email` and `text` as claimed. -/
theorem detect_category_eq_spec_rules_on_stripped (content : String) :
    detect_category content = specCategoryRules (pyStrip content.data) ∧
    detect_category "https://example.com" = "url" ∧
    detect_category "C:\\Users\\alice\\file.txt" = "file_path" ∧
    detect_category "alice@example.com" = "email" ∧
    detect_category "just a note" = "text" := by
  refine ⟨?_, by decide, by decide, by decide, by decide⟩
  show (let c := pyStrip content.data
    if ("http://".data.isPrefixOf c) || ("https://".data.isPrefixOf c) ||
        ("ftp://".data.isPrefixOf c) then "url"
    else if containsSub [':', '\\'] c || ['\\', '\\'].isPrefixOf c then "file_path"
    else if containsSub ['@'] c && containsSub ['.'] c then
      let parts := splitOnChar '@' c
      if parts.length = 2 && containsSub ['.'] (parts.getD 1 []) then "email" else "text"
    else "text") = specCategoryRules (pyStrip content.data)
  unfold specCategoryRules
  set c := pyStrip content.data with hc
  show (if ("http://".data.isPrefixOf c) || ("https://".data.isPrefixOf c) ||
        ("ftp://".data.isPrefixOf c) then "url"
    else if containsSub [':', '\\'] c || ['\\', '\\'].isPrefixOf c then "file_path"
    else if containsSub ['@'] c && containsSub ['.'] c then
      if (splitOnChar '@' c).length = 2 &&
          containsSub ['.'] ((splitOnChar '@' c).getD 1 []) then "email" else "text"
    else "text") = _
  by_cases h1 : (("http://".data.isPrefixOf c) || ("https://".data.isPrefixOf c) ||
      ("ftp://".data.isPrefixOf c)) = true
  · rw [if_pos h1, if_pos h1]
  · rw [if_neg h1, if_neg h1]
    by_cases h2 : (containsSub [':', '\\'] c || ['\\', '\\'].isPrefixOf c) = true
    · rw [if_pos h2, if_pos h2]
    · rw [if_neg h2, if_neg h2]
      -- email branch: the code's split-based test agrees with the claimed
      -- exactly-one-`@`-then-`.` rule
      by_cases hcount : c.count '@' = 1
      · have hlen : (splitOnChar '@' c).length = 2 := by
          rw [splitOnChar_length, hcount]
        have hget : (splitOnChar '@' c).getD 1 [] =
            (c.dropWhile (fun x => x ≠ '@')).drop 1 := splitOnChar_getD_one _ _ hcount
        have hat : containsSub ['@'] c = true := by
          rw [containsSub_singleton, ← List.count_pos_iff, hcount]
          omega
        rw [hget]
        by_cases hdot : containsSub ['.'] ((c.dropWhile (fun x => x ≠ '@')).drop 1) = true
        · have hdotc : containsSub ['.'] c = true := by
            rw [containsSub_singleton] at hdot ⊢
            exact (c.dropWhile_sublist (fun x => x ≠ '@')).subset
              (((c.dropWhile (fun x => x ≠ '@')).drop_sublist 1).subset hdot)
          rw [if_pos (by rw [hat, hdotc]; rfl),
              if_pos (by rw [hdot, decide_eq_true hlen]; rfl),
              if_pos ⟨hcount, hdot⟩]
        · rw [if_neg (show ¬(c.count '@' = 1 ∧ _) from fun hcon => hdot hcon.2)]
          by_cases hdotc : containsSub ['.'] c = true
          · rw [if_pos (by rw [hat, hdotc]; rfl),
                if_neg (show ¬_ by simp only [Bool.and_eq_true, not_and]; exact fun _ => hdot)]
          · rw [if_neg (show ¬_ by simp only [Bool.and_eq_true, not_and]; exact fun _ => hdotc)]
      · -- no or several `@`: both sides give "text"
        rw [if_neg (show ¬(c.count '@' = 1 ∧ _) from fun hcon => hcount hcon.1)]
        by_cases hguard : (containsSub ['@'] c && containsSub ['.'] c) = true
        · have hlen : decide ((splitOnChar '@' c).length = 2) = false := by
            rw [decide_eq_false_iff_not, splitOnChar_length]
            omega
          rw [if_pos hguard, if_neg (show ¬_ by rw [hlen]; simp)]
        · rw [if_neg hguard]

/-! ## import_entry lemmas -/

theorem evictFromHead_entries (m : Nat) :
    ∀ (l : List ClipboardEntry) (idx : List (String × ClipboardEntry)),
      (evictFromHead m l idx).1 = l.drop (l.length - m) := by
  intro l
  induction l with
  | nil => intro idx; simp [evictFromHead]
  | cons e rest ih =>
    intro idx
    by_cases hover : rest.length + 1 > m
    · rw [show (e :: rest).length - m = (rest.length - m) + 1 by
        simp [List.length_cons]; omega]
      simp only [evictFromHead, if_pos hover, List.drop_succ_cons]
      exact ih _
    · simp only [evictFromHead, if_neg hover, List.length_cons]
      rw [show rest.length + 1 - m = 0 by omega, List.drop_zero]

/-- Keys of a mirroring index are exactly the entry hashes (as multisets). -/
theorem indexMirrors_keys {h : ClipboardHistory} (hm : indexMirrors h) :
    (h.hash_index.map Prod.fst).Perm (h.entries.map (·.content_hash)) := by
  have := hm.map Prod.fst
  rwa [List.map_map] at this

/-- C5: for an invariant-satisfying store, `import_entry` skips an entry
whose hash is already present (returns `false`, store unchanged); otherwise
it appends the entry at the tail, returns `true`, and evicts from the head
(index 0 of the newest-first sequence) exactly until the bound holds. The
nonempty-hash hypothesis reflects `ClipboardEntry.__post_init__`, which
computes a hash whenever an empty one is supplied. -/
theorem import_entry_spec (h : ClipboardHistory) (e : ClipboardEntry)
    (hinv : HistoryInv h) (hne : e.content_hash ≠ "") :
    (e.content_hash ∈ h.entries.map (·.content_hash) →
      import_entry h e = (false, h)) ∧
    (e.content_hash ∉ h.entries.map (·.content_hash) →
      (import_entry h e).1 = true ∧
      (import_entry h e).2.entries =
        (h.entries ++ [e]).drop (h.entries.length + 1 - h.max_size)) := by
  have hkeys := indexMirrors_keys hinv.1
  constructor
  · intro hmem
    have hsome : (dictGet h.hash_index e.content_hash).isSome = true := by
      rw [dictGet_isSome_iff]
      exact hkeys.mem_iff.2 hmem
    simp [import_entry, hne, hsome]
  · intro hmem
    have hnone : ¬(dictGet h.hash_index e.content_hash).isSome = true := by
      rw [dictGet_isSome_iff, hkeys.mem_iff]
      exact hmem
    have hdrop := evictFromHead_entries h.max_size (h.entries ++ [e])
      (dictSet h.hash_index e.content_hash e)
    constructor
    · simp [import_entry, hne, hnone]
    · simp only [import_entry, if_neg hne, hnone, if_false, Bool.false_eq_true]
      rw [hdrop]
      simp [List.length_append]

/-- Witness for C5: importing a fresh entry into an empty default store. -/
theorem import_entry_spec_witness :
    (import_entry {} ⟨"x", 0, "hx", "text", []⟩).1 = true ∧
    (import_entry {} ⟨"x", 0, "hx", "text", []⟩).2.entries =
      [⟨"x", 0, "hx", "text", []⟩] := by
  have hmain := (import_entry_spec {} ⟨"x", 0, "hx", "text", []⟩
    (by constructor <;> simp [indexMirrors, sizeBounded]) (by decide)).2 (by simp)
  exact ⟨hmain.1, by simpa using hmain.2⟩

/-! ## Store-invariant lemmas (C2) -/

theorem rebuildIndex_aux (l : List ClipboardEntry)
    (acc : List (String × ClipboardEntry))
    (hdisj : ∀ e ∈ l, e.content_hash ∉ acc.map Prod.fst)
    (hnd : (l.map (·.content_hash)).Nodup) :
    l.foldl (fun d e => dictSet d e.content_hash e) acc =
      acc ++ l.map (fun e => (e.content_hash, e)) := by
  induction l generalizing acc with
  | nil => simp
  | cons e t ih =>
    rw [List.map_cons, List.nodup_cons] at hnd
    rw [List.foldl_cons, dictSet_fresh acc e.content_hash e
      (hdisj e (List.mem_cons_self e t))]
    rw [ih (acc ++ [(e.content_hash, e)])]
    · simp
    · intro e' he'
      simp only [List.map_append, List.mem_append]
      push_neg
      refine ⟨hdisj e' (List.mem_cons_of_mem e he'), ?_⟩
      have : e'.content_hash ≠ e.content_hash := by
        intro heq
        exact hnd.1 (heq ▸ List.mem_map_of_mem (·.content_hash) he')
      simpa using this
    · exact hnd.2

theorem rebuildIndex_eq (l : List ClipboardEntry)
    (hnd : (l.map (·.content_hash)).Nodup) :
    rebuildIndex l = l.map (fun e => (e.content_hash, e)) := by
  have := rebuildIndex_aux l [] (by simp) hnd
  simpa [rebuildIndex] using this

theorem dedupKeepFirst_of_nodup (l : List ClipboardEntry) :
    ∀ seen : List String, (l.map (·.content_hash)).Nodup →
      (∀ e ∈ l, e.content_hash ∉ seen) → dedupKeepFirst seen l = (l, 0) := by
  induction l with
  | nil => intro seen _ _; rfl
  | cons e t ih =>
    intro seen hnd hdisj
    rw [List.map_cons, List.nodup_cons] at hnd
    have hseen : e.content_hash ∉ seen := hdisj e (List.mem_cons_self e t)
    rw [dedupKeepFirst, if_neg hseen,
      ih (e.content_hash :: seen) hnd.2]
    intro e' he'
    simp only [List.mem_cons]
    push_neg
    constructor
    · intro heq
      exact hnd.1 (heq ▸ List.mem_map_of_mem (·.content_hash) he')
    · exact hdisj e' (List.mem_cons_of_mem e he')

theorem evictFromHead_inv (m : Nat) :
    ∀ (l : List ClipboardEntry) (idx : List (String × ClipboardEntry)),
      idx.Perm (l.map fun e => (e.content_hash, e)) →
      (l.map (·.content_hash)).Nodup →
      (evictFromHead m l idx).2.Perm
        ((evictFromHead m l idx).1.map fun e => (e.content_hash, e)) ∧
      ((evictFromHead m l idx).1.map (·.content_hash)).Nodup ∧
      (evictFromHead m l idx).1.length ≤ m := by
  intro l
  induction l with
  | nil =>
    intro idx hp _
    simpa [evictFromHead] using hp
  | cons e rest ih =>
    intro idx hp hnd
    rw [List.map_cons, List.nodup_cons] at hnd
    by_cases hover : rest.length + 1 > m
    · simp only [evictFromHead, if_pos hover]
      apply ih
      · have hkeys : (idx.map Prod.fst).Nodup := by
          rw [((hp.map Prod.fst).nodup_iff)]
          simpa [List.map_map, Function.comp] using List.nodup_cons.2 hnd
        have h1 : (dictRemove idx e.content_hash).Perm
            (dictRemove ((e.content_hash, e) ::
              (rest.map fun x => (x.content_hash, x))) e.content_hash) :=
          dictRemove_perm _ _ _ (by simpa using hp) hkeys
        have h2 : dictRemove ((e.content_hash, e) ::
            (rest.map fun x => (x.content_hash, x))) e.content_hash =
            rest.map fun x => (x.content_hash, x) := by
          simp [dictRemove]
        rw [h2] at h1
        exact h1
      · exact hnd.2
    · simp only [evictFromHead, if_neg hover]
      exact ⟨by simpa using hp, List.nodup_cons.2 hnd, by simpa using Nat.le_of_not_lt hover⟩

theorem add_entry_inv (h : ClipboardHistory) (content : String) (ts : Nat)
    (hinv : HistoryInv h)
    (hcase : h.dedupe_enabled = true ∨
      calculate_hash content ∉ h.entries.map (·.content_hash)) :
    HistoryInv (add_entry h content ts).2 := by
  obtain ⟨hmir, hnd, hsz⟩ := hinv
  have hkperm := indexMirrors_keys hmir
  have hkeys : (h.hash_index.map Prod.fst).Nodup := hkperm.nodup_iff.2 hnd
  by_cases hcontent : content = ""
  · simpa [add_entry, hcontent] using ⟨hmir, hnd, hsz⟩
  · simp only [add_entry, if_neg hcontent]
    split
    next existing hEq =>
      -- dedupe path: the hash is already indexed
      have hget : dictGet h.hash_index (calculate_hash content) = some existing := by
        by_cases hd : h.dedupe_enabled = true
        · rwa [if_pos hd] at hEq
        · rw [if_neg hd] at hEq; exact absurd hEq (by simp)
      have hpair : (calculate_hash content, existing) ∈
          h.entries.map (fun e => (e.content_hash, e)) :=
        hmir.mem_iff.1 (dictGet_mem _ _ _ hget)
      obtain ⟨a, ha_mem, ha_eq⟩ := List.mem_map.1 hpair
      rw [Prod.mk.injEq] at ha_eq
      obtain ⟨hahash, haeq⟩ := ha_eq
      subst haeq
      have hex_hash : a.content_hash = calculate_hash content := hahash
      rw [← hex_hash]
      have hkmem : a.content_hash ∈ h.entries.map (·.content_hash) :=
        List.mem_map_of_mem (·.content_hash) ha_mem
      have hszn : h.entries.length ≤ h.max_size := hsz
      refine ⟨?_, ?_, ?_⟩
      · show (dictSet h.hash_index a.content_hash _).Perm _
        refine (dictSet_perm _ _ _).trans (List.Perm.cons _ ?_)
        rw [map_removeFirstByHash]
        exact dictRemove_perm _ _ _ hmir hkeys
      · rw [List.map_cons, map_hash_removeFirstByHash]
        refine List.nodup_cons.2 ⟨?_, hnd.erase _⟩
        intro hmem
        exact ((hnd.mem_erase_iff).1 hmem).1 rfl
      · have hlen : (removeFirstByHash h.entries a.content_hash).length =
            h.entries.length - 1 := by
          have := congrArg List.length
            (map_hash_removeFirstByHash h.entries a.content_hash)
          rwa [List.length_map, List.length_erase_of_mem hkmem, List.length_map] at this
        have hpos : 0 < h.entries.length := List.length_pos.2 (by
          intro hnil
          rw [hnil] at ha_mem
          exact absurd ha_mem (List.not_mem_nil a))
        show sizeBounded _
        unfold sizeBounded
        simp only [List.length_cons, hlen]
        omega
    next hEq =>
      -- fresh-hash path
      have hfresh : calculate_hash content ∉ h.entries.map (·.content_hash) := by
        rcases hcase with hd | hf
        · rw [if_pos hd] at hEq
          intro hmem
          exact absurd hEq (by
            rw [dictGet_eq_none_iff]
            simpa using hkperm.mem_iff.2 hmem)
        · exact hf
      have hfreshk : calculate_hash content ∉ h.hash_index.map Prod.fst := by
        intro hmem
        exact hfresh (hkperm.mem_iff.1 hmem)
      have hmir1 : (dictSet h.hash_index (calculate_hash content)
          ⟨content, ts, calculate_hash content, detect_category content, []⟩).Perm
          ((⟨content, ts, calculate_hash content, detect_category content, []⟩ ::
            h.entries).map fun e => (e.content_hash, e)) := by
        rw [dictSet_fresh _ _ _ hfreshk, List.map_cons]
        exact (List.perm_append_singleton _ _).trans (hmir.cons _)
      have hnd1 : (((⟨content, ts, calculate_hash content, detect_category content, []⟩ ::
          h.entries)).map (·.content_hash)).Nodup := by
        rw [List.map_cons]
        exact List.nodup_cons.2 ⟨hfresh, hnd⟩
      split
      next hover =>
        -- eviction of the tail entry
        set L : List ClipboardEntry :=
          ⟨content, ts, calculate_hash content, detect_category content, []⟩ ::
            h.entries with hL
        have hne' : L ≠ [] := by simp [hL]
        have hsplit := List.dropLast_append_getLast hne'
        have hndL : (L.map (·.content_hash)).Nodup := hnd1
        have hnd_app : ((L.dropLast.map (·.content_hash)) ++
            [(L.getLast hne').content_hash]).Nodup := by
          rw [show (L.dropLast.map (·.content_hash)) ++ [(L.getLast hne').content_hash] =
            (L.dropLast ++ [L.getLast hne']).map (·.content_hash) by simp, hsplit]
          exact hndL
        rw [List.nodup_append] at hnd_app
        have hgl_notin : (L.getLast hne').content_hash ∉
            L.dropLast.map (·.content_hash) := by
          intro hmem
          exact hnd_app.2.2 hmem (List.mem_singleton.2 rfl)
        have hkeys1 : ((dictSet h.hash_index (calculate_hash content)
            ⟨content, ts, calculate_hash content, detect_category content, []⟩).map
              Prod.fst).Nodup := by
          rw [(hmir1.map Prod.fst).nodup_iff]
          simpa [List.map_map, Function.comp_def] using hndL
        refine ⟨?_, ?_, ?_⟩
        · show (dictRemove _ _).Perm _
          refine (dictRemove_perm _ _ _ hmir1 hkeys1).trans ?_
          have hmapL : L.map (fun e => (e.content_hash, e)) =
              L.dropLast.map (fun e => (e.content_hash, e)) ++
                [((L.getLast hne').content_hash, L.getLast hne')] := by
            conv_lhs => rw [← hsplit]
            simp
          rw [hmapL, dictRemove_append_left _ _ _ (by
            simpa [List.map_map, Function.comp_def] using hgl_notin)]
          rw [show dictRemove [((L.getLast hne').content_hash, L.getLast hne')]
            (L.getLast hne').content_hash = [] by simp [dictRemove], List.append_nil]
        · exact hnd_app.1
        · have hszn : h.entries.length ≤ h.max_size := hsz
          show sizeBounded _
          unfold sizeBounded
          show L.dropLast.length ≤ h.max_size
          rw [List.length_dropLast, hL]
          simp only [List.length_cons]
          omega
      next hover =>
        refine ⟨hmir1, hnd1, ?_⟩
        show sizeBounded _
        unfold sizeBounded
        simpa [List.length_cons] using Nat.le_of_not_lt hover

theorem import_entry_inv (h : ClipboardHistory) (e : ClipboardEntry)
    (hinv : HistoryInv h) : HistoryInv (import_entry h e).2 := by
  obtain ⟨hmir, hnd, hsz⟩ := hinv
  have hkperm := indexMirrors_keys hmir
  by_cases hne : e.content_hash = ""
  · simpa [import_entry, hne] using ⟨hmir, hnd, hsz⟩
  · by_cases hsome : (dictGet h.hash_index e.content_hash).isSome = true
    · simpa [import_entry, hne, hsome] using ⟨hmir, hnd, hsz⟩
    · have hfresh : e.content_hash ∉ h.entries.map (·.content_hash) := by
        rw [← hkperm.mem_iff, ← dictGet_isSome_iff]
        exact hsome
      have hfreshk : e.content_hash ∉ h.hash_index.map Prod.fst := by
        rw [dictGet_isSome_iff] at hsome
        exact hsome
      have hmir1 : (dictSet h.hash_index e.content_hash e).Perm
          ((h.entries ++ [e]).map fun x => (x.content_hash, x)) := by
        rw [dictSet_fresh _ _ _ hfreshk, List.map_append, List.map_singleton]
        exact hmir.append_right _
      have hnd1 : ((h.entries ++ [e]).map (·.content_hash)).Nodup := by
        rw [List.map_append, List.map_singleton]
        rw [(List.perm_append_singleton _ _).nodup_iff]
        exact List.nodup_cons.2 ⟨hfresh, hnd⟩
      have hev := evictFromHead_inv h.max_size (h.entries ++ [e])
        (dictSet h.hash_index e.content_hash e) hmir1 hnd1
      simp only [import_entry, if_neg hne, hsome, if_false, Bool.false_eq_true]
      exact ⟨hev.1.symm.symm, hev.2.1, hev.2.2⟩

theorem remove_duplicates_inv (h : ClipboardHistory)
    (hinv : HistoryInv h) : HistoryInv (remove_duplicates h).2 := by
  obtain ⟨hmir, hnd, hsz⟩ := hinv
  by_cases hd : h.dedupe_enabled = true
  · have hkeep := dedupKeepFirst_of_nodup h.entries [] hnd (by simp)
    refine ⟨?_, ?_, ?_⟩
    · simp only [remove_duplicates, hd, indexMirrors, not_true, if_false,
        Bool.false_eq_true, hkeep]
      rw [rebuildIndex_eq _ hnd]
    · simp only [remove_duplicates, hd, not_true, if_false, Bool.false_eq_true, hkeep]
      exact hnd
    · simp only [remove_duplicates, hd, sizeBounded, not_true, if_false,
        Bool.false_eq_true, hkeep]
      exact hsz
  · simpa [remove_duplicates, hd] using ⟨hmir, hnd, hsz⟩

theorem cleanup_old_entries_inv (h : ClipboardHistory) (cutoff : Nat)
    (hinv : HistoryInv h) : HistoryInv (cleanup_old_entries h cutoff).2 := by
  obtain ⟨hmir, hnd, hsz⟩ := hinv
  have hsub : ((h.entries.filter fun e => cutoff < e.timestamp).map
      (·.content_hash)).Nodup :=
    ((List.filter_sublist h.entries).map (·.content_hash)).nodup hnd
  refine ⟨?_, ?_, ?_⟩
  · simp only [cleanup_old_entries, indexMirrors]
    rw [rebuildIndex_eq _ hsub]
  · simpa only [cleanup_old_entries] using hsub
  · simp only [cleanup_old_entries, sizeBounded]
    exact le_trans (List.length_filter_le _ _) hsz

theorem clear_inv (h : ClipboardHistory) : HistoryInv (clear h) := by
  refine ⟨?_, ?_, ?_⟩ <;> simp [clear, indexMirrors, sizeBounded]

theorem from_json_inv (h : ClipboardHistory) (j : HistoryJson)
    (hnd : (j.entries.map (·.content_hash)).Nodup)
    (hsz : j.entries.length ≤ j.max_size) : HistoryInv (from_json h j) := by
  refine ⟨?_, hnd, hsz⟩
  simp only [from_json, indexMirrors]
  rw [rebuildIndex_eq _ hnd]

/-- C2 counterexample: `from_json` trusts the document wholesale — loading
a document with `max_size = 1` and two (distinct-hash) entries leaves the
sequence length above `max_size`, so the claimed invariant fails after a
public mutating operation. -/
theorem from_json_violates_size_bound :
    ¬(indexMirrors (from_json {}
        ⟨[⟨"a", 0, "h1", "text", []⟩, ⟨"b", 0, "h2", "text", []⟩], 1, true⟩) ∧
      sizeBounded (from_json {}
        ⟨[⟨"a", 0, "h1", "text", []⟩, ⟨"b", 0, "h2", "text", []⟩], 1, true⟩)) := by
  intro hcon
  have h2 : (2 : Nat) ≤ 1 := hcon.2
  omega

/-- C2 (amended): for every store satisfying the invariant — the hash
index holds exactly one binding per entry (keyed by `content_hash`,
mapping to that entry), entry hashes are pairwise distinct, and the length
is at most `max_size` — the invariant is preserved by `add_entry` whenever
dedupe is enabled or the added content's hash is fresh, and by
`import_entry`, `remove_duplicates`, `cleanup_old_entries` and `clear`
unconditionally; `from_json` re-establishes it exactly when the decoded
document's entries have pairwise-distinct hashes and number at most the
decoded `max_size` (with dedupe disabled, a duplicate `add_entry` breaks
the mirror, and `from_json` enforces no bound — see the counterexample). -/
theorem history_invariant_preservation (h : ClipboardHistory)
    (hinv : HistoryInv h) :
    (∀ content ts,
      (h.dedupe_enabled = true ∨
        calculate_hash content ∉ h.entries.map (·.content_hash)) →
      HistoryInv (add_entry h content ts).2) ∧
    (∀ e, HistoryInv (import_entry h e).2) ∧
    HistoryInv (remove_duplicates h).2 ∧
    (∀ cutoff, HistoryInv (cleanup_old_entries h cutoff).2) ∧
    HistoryInv (clear h) ∧
    (∀ j : HistoryJson, (j.entries.map (·.content_hash)).Nodup →
      j.entries.length ≤ j.max_size → HistoryInv (from_json h j)) :=
  ⟨fun content ts hcase => add_entry_inv h content ts hinv hcase,
   fun e => import_entry_inv h e hinv,
   remove_duplicates_inv h hinv,
   fun cutoff => cleanup_old_entries_inv h cutoff hinv,
   clear_inv h,
   fun j hnd hsz => from_json_inv h j hnd hsz⟩

/-- Witness for C2 at the empty default store. -/
theorem history_invariant_preservation_witness :
    HistoryInv ({} : ClipboardHistory) ∧
    HistoryInv (add_entry {} "hello" 0).2 ∧
    HistoryInv (import_entry {} ⟨"x", 0, "hx", "text", []⟩).2 := by
  have hinv : HistoryInv ({} : ClipboardHistory) := by
    refine ⟨?_, ?_, ?_⟩ <;> simp [indexMirrors, sizeBounded]
  exact ⟨hinv,
    (history_invariant_preservation {} hinv).1 "hello" 0 (Or.inl rfl),
    (history_invariant_preservation {} hinv).2.1 ⟨"x", 0, "hx", "text", []⟩⟩

/-! ## Base64 round-trip (C6) -/

theorem b64Index_b64Char : ∀ n < 64, b64Index (b64Char n) = some n := by
  decide

theorem b64Char_ne_pad : ∀ n < 64, b64Char n ≠ '=' := by
  decide

theorem b64arith_one : ∀ a < 256, a % 4 * 16 % 16 = 0 ∧
    a / 4 * 4 + a % 4 * 16 / 16 = a := by
  decide

theorem b64arith_two : ∀ b < 256, b % 16 * 4 % 4 = 0 ∧ b % 16 * 4 / 4 = b % 16 := by
  decide

theorem b64arith_g1 : ∀ a < 256, ∀ y < 16,
    a / 4 * 4 + (a % 4 * 16 + y) / 16 = a ∧ (a % 4 * 16 + y) % 16 = y := by
  decide

theorem b64arith_g2 : ∀ x < 16, ∀ z < 4,
    (x * 4 + z) / 4 = x ∧ (x * 4 + z) % 4 = z := by
  decide

theorem b64_roundtrip : ∀ l : List Nat, (∀ b ∈ l, b < 256) →
    b64decodeChars (b64encodeBytes l) = some l
  | [], _ => rfl
  | [a], h => by
    have ha : a < 256 := h a (by simp)
    have h0 : a / 4 < 64 := by omega
    have h1 : a % 4 * 16 < 64 := by omega
    simp only [b64encodeBytes, b64decodeChars, if_pos rfl, eq_self_iff_true, if_true,
      b64Index_b64Char _ h0, b64Index_b64Char _ h1, Option.bind_eq_bind,
      Option.some_bind]
    rw [if_pos (b64arith_one a ha).1, (b64arith_one a ha).2]
  | [a, b], h => by
    have ha : a < 256 := h a (by simp)
    have hb : b < 256 := h b (by simp)
    have h0 : a / 4 < 64 := by omega
    have h1 : a % 4 * 16 + b / 16 < 64 := by omega
    have h2 : b % 16 * 4 < 64 := by omega
    simp only [b64encodeBytes, b64decodeChars, if_pos rfl, eq_self_iff_true, if_true,
      if_neg (b64Char_ne_pad _ h2),
      b64Index_b64Char _ h0, b64Index_b64Char _ h1, b64Index_b64Char _ h2,
      Option.bind_eq_bind, Option.some_bind]
    rw [if_pos (b64arith_two b hb).1, (b64arith_two b hb).2,
      (b64arith_g1 a ha (b / 16) (by omega)).1, (b64arith_g1 a ha (b / 16) (by omega)).2,
      show b / 16 * 16 + b % 16 = b by omega]
  | a :: b :: c :: rest, h => by
    have ha : a < 256 := h a (by simp)
    have hb : b < 256 := h b (by simp)
    have hc : c < 256 := h c (by simp)
    have h0 : a / 4 < 64 := by omega
    have h1 : a % 4 * 16 + b / 16 < 64 := by omega
    have h2 : b % 16 * 4 + c / 64 < 64 := by omega
    have h3 : c % 64 < 64 := by omega
    have ih := b64_roundtrip rest fun x hx => h x (by simp [hx])
    simp only [b64encodeBytes, b64decodeChars,
      if_neg (b64Char_ne_pad _ h3),
      b64Index_b64Char _ h0, b64Index_b64Char _ h1, b64Index_b64Char _ h2,
      b64Index_b64Char _ h3, ih, Option.bind_eq_bind, Option.some_bind]
    rw [(b64arith_g1 a ha (b / 16) (by omega)).1,
      (b64arith_g1 a ha (b / 16) (by omega)).2,
      (b64arith_g2 (b % 16) (by omega) (c / 64) (by omega)).1,
      (b64arith_g2 (b % 16) (by omega) (c / 64) (by omega)).2,
      show b / 16 * 16 + b % 16 = b by omega,
      show c / 64 * 64 + c % 64 = c by omega]

theorem b64decode_encode (l : List Nat) (h : ∀ b ∈ l, b < 256) :
    b64decode (b64encode l) = some l :=
  b64_roundtrip l h

/-! ## UTF-8 round-trip (C6) -/

theorem char_toNat_lt (c : Char) : c.toNat < 1114112 := by
  show c.val.toNat < 1114112
  rcases c.valid with h | h
  · omega
  · omega

theorem mkChar_toNat (c : Char) : mkChar c.toNat = some c := by
  unfold mkChar
  rw [if_pos (show (Char.toNat c).isValidChar from c.valid), Char.ofNat_toNat]

theorem utf8DecodeStep_encodeChar (c : Char) (rest : List Nat) :
    ∃ b tail, utf8EncodeChar c.toNat = b :: tail ∧
      utf8DecodeStep b (tail ++ rest) = some (c.toNat, rest) := by
  have hlt : c.toNat < 1114112 := char_toNat_lt c
  by_cases h1 : c.toNat < 0x80
  · refine ⟨c.toNat, [], by rw [utf8EncodeChar, if_pos h1], ?_⟩
    rw [List.nil_append, utf8DecodeStep.eq_def, if_pos h1]
  · by_cases h2 : c.toNat < 0x800
    · have hb1 : ¬(0xC0 + c.toNat / 64 < 0x80) := by omega
      have hb2 : ¬(0xC0 + c.toNat / 64 < 0xC0) := by omega
      have hb3 : 0xC0 + c.toNat / 64 < 0xE0 := by omega
      have hcont : isContByte (0x80 + c.toNat % 64) = true := by
        simp only [isContByte, Bool.and_eq_true, decide_eq_true_eq]
        omega
      have hval : (0xC0 + c.toNat / 64 - 0xC0) * 64 + (0x80 + c.toNat % 64 - 0x80) =
          c.toNat := by omega
      refine ⟨0xC0 + c.toNat / 64, [0x80 + c.toNat % 64],
        by rw [utf8EncodeChar, if_neg h1, if_pos h2], ?_⟩
      rw [List.cons_append, List.nil_append, utf8DecodeStep.eq_def,
        if_neg hb1, if_neg hb2, if_pos hb3]
      simp only [hcont, eq_self_iff_true, if_true, hval]
    · by_cases h3 : c.toNat < 0x10000
      · have hb1 : ¬(0xE0 + c.toNat / 4096 < 0x80) := by omega
        have hb2 : ¬(0xE0 + c.toNat / 4096 < 0xC0) := by omega
        have hb3 : ¬(0xE0 + c.toNat / 4096 < 0xE0) := by omega
        have hb4 : 0xE0 + c.toNat / 4096 < 0xF0 := by omega
        have hcont1 : isContByte (0x80 + c.toNat / 64 % 64) = true := by
          simp only [isContByte, Bool.and_eq_true, decide_eq_true_eq]
          omega
        have hcont2 : isContByte (0x80 + c.toNat % 64) = true := by
          simp only [isContByte, Bool.and_eq_true, decide_eq_true_eq]
          omega
        have hval : (0xE0 + c.toNat / 4096 - 0xE0) * 4096 +
            (0x80 + c.toNat / 64 % 64 - 0x80) * 64 + (0x80 + c.toNat % 64 - 0x80) =
            c.toNat := by omega
        refine ⟨0xE0 + c.toNat / 4096, [0x80 + c.toNat / 64 % 64, 0x80 + c.toNat % 64],
          by rw [utf8EncodeChar, if_neg h1, if_neg h2, if_pos h3], ?_⟩
        rw [List.cons_append, List.cons_append, List.nil_append,
          utf8DecodeStep.eq_def, if_neg hb1, if_neg hb2, if_neg hb3, if_pos hb4]
        simp only [hcont1, hcont2, Bool.and_self, eq_self_iff_true, if_true, hval]
      · have hb1 : ¬(0xF0 + c.toNat / 262144 < 0x80) := by omega
        have hb2 : ¬(0xF0 + c.toNat / 262144 < 0xC0) := by omega
        have hb3 : ¬(0xF0 + c.toNat / 262144 < 0xE0) := by omega
        have hb4 : ¬(0xF0 + c.toNat / 262144 < 0xF0) := by omega
        have hb5 : 0xF0 + c.toNat / 262144 < 0xF8 := by omega
        have hcont1 : isContByte (0x80 + c.toNat / 4096 % 64) = true := by
          simp only [isContByte, Bool.and_eq_true, decide_eq_true_eq]
          omega
        have hcont2 : isContByte (0x80 + c.toNat / 64 % 64) = true := by
          simp only [isContByte, Bool.and_eq_true, decide_eq_true_eq]
          omega
        have hcont3 : isContByte (0x80 + c.toNat % 64) = true := by
          simp only [isContByte, Bool.and_eq_true, decide_eq_true_eq]
          omega
        have hval : (0xF0 + c.toNat / 262144 - 0xF0) * 262144 +
            (0x80 + c.toNat / 4096 % 64 - 0x80) * 4096 +
            (0x80 + c.toNat / 64 % 64 - 0x80) * 64 + (0x80 + c.toNat % 64 - 0x80) =
            c.toNat := by omega
        refine ⟨0xF0 + c.toNat / 262144,
          [0x80 + c.toNat / 4096 % 64, 0x80 + c.toNat / 64 % 64, 0x80 + c.toNat % 64],
          by rw [utf8EncodeChar, if_neg h1, if_neg h2, if_neg h3], ?_⟩
        rw [List.cons_append, List.cons_append, List.cons_append, List.nil_append,
          utf8DecodeStep.eq_def, if_neg hb1, if_neg hb2, if_neg hb3, if_neg hb4,
          if_pos hb5]
        simp only [hcont1, hcont2, hcont3, Bool.and_self, eq_self_iff_true,
          if_true, hval]

theorem utf8DecodeAux_encodeChar (c : Char) (rest : List Nat) (fuel : Nat) :
    utf8DecodeAux (fuel + 1) (utf8EncodeChar c.toNat ++ rest) =
      (utf8DecodeAux fuel rest).map (fun cs => c :: cs) := by
  obtain ⟨b, tail, henc, hstep⟩ := utf8DecodeStep_encodeChar c rest
  rw [henc, List.cons_append, utf8DecodeAux, hstep]
  simp only [mkChar_toNat]
  cases utf8DecodeAux fuel rest <;> rfl

theorem utf8EncodeChar_length_pos (n : Nat) : 0 < (utf8EncodeChar n).length := by
  unfold utf8EncodeChar
  split_ifs <;> simp

theorem utf8DecodeAux_encodeChars (cs : List Char) :
    ∀ fuel, (utf8EncodeChars cs).length ≤ fuel →
      utf8DecodeAux fuel (utf8EncodeChars cs) = some cs := by
  induction cs with
  | nil => intro fuel _; cases fuel <;> rfl
  | cons c t ih =>
    intro fuel hf
    rw [show utf8EncodeChars (c :: t) =
      utf8EncodeChar c.toNat ++ utf8EncodeChars t from rfl] at hf ⊢
    have hpos := utf8EncodeChar_length_pos c.toNat
    rw [List.length_append] at hf
    cases fuel with
    | zero => omega
    | succ f =>
      rw [utf8DecodeAux_encodeChar c _ f, ih f (by omega)]
      rfl

theorem utf8_roundtrip_chars (cs : List Char) :
    utf8DecodeChars (utf8EncodeChars cs) = some cs :=
  utf8DecodeAux_encodeChars cs _ le_rfl

theorem utf8_roundtrip (s : String) : utf8Decode (utf8Encode s) = some s := by
  unfold utf8Decode utf8Encode
  rw [utf8_roundtrip_chars]
  rfl

theorem utf8EncodeChar_lt (n : Nat) (hn : n < 1114112) :
    ∀ b ∈ utf8EncodeChar n, b < 256 := by
  intro b hb
  unfold utf8EncodeChar at hb
  by_cases h1 : n < 0x80
  · simp [h1] at hb
    omega
  · by_cases h2 : n < 0x800
    · simp [h1, h2] at hb
      rcases hb with hb | hb <;> omega
    · by_cases h3 : n < 0x10000
      · simp [h1, h2, h3] at hb
        rcases hb with hb | hb | hb <;> omega
      · simp [h1, h2, h3] at hb
        rcases hb with hb | hb | hb | hb <;> omega

theorem utf8Encode_lt (s : String) : ∀ b ∈ utf8Encode s, b < 256 := by
  show ∀ b ∈ utf8EncodeChars s.data, b < 256
  induction s.data with
  | nil => simp [utf8EncodeChars]
  | cons c t ih =>
    intro b hb
    rw [utf8EncodeChars, List.mem_append] at hb
    rcases hb with hb | hb
    · exact utf8EncodeChar_lt c.toNat (char_toNat_lt c) b hb
    · exact ih b hb

/-! ## CTR mode and the encrypt/decrypt round-trip (C6) -/

theorem ctrCryptAux_invol (key j0 : List Nat) :
    ∀ (i : Nat) (l : List Nat),
      ctrCryptAux key j0 i (ctrCryptAux key j0 i l) = l := by
  intro i l
  induction l generalizing i with
  | nil => rfl
  | cons b rest ih =>
    rw [ctrCryptAux, ctrCryptAux, Nat.xor_assoc, Nat.xor_self, Nat.xor_zero, ih]

theorem ctrCryptAux_lt (key j0 : List Nat) :
    ∀ (i : Nat) (l : List Nat), (∀ b ∈ l, b < 256) →
      ∀ b ∈ ctrCryptAux key j0 i l, b < 256 := by
  intro i l
  induction l generalizing i with
  | nil => intro _ b hb; simp [ctrCryptAux] at hb
  | cons x rest ih =>
    intro hl b hb
    rw [ctrCryptAux] at hb
    rcases List.mem_cons.1 hb with hb | hb
    · subst hb
      have hx := hl x (List.mem_cons_self x rest)
      have hk : ksByte key j0 i < 256 := by
        rw [ksByte]
        exact Nat.mod_lt _ (by norm_num)
      simpa using Nat.xor_lt_two_pow (n := 8) (by simpa using hx) (by simpa using hk)
    · exact ih (i + 1) (fun y hy => hl y (List.mem_cons_of_mem x hy)) b hb

theorem toBytesBE_lt (k n : Nat) : ∀ b ∈ toBytesBE k n, b < 256 := by
  intro b hb
  rw [toBytesBE, List.mem_map] at hb
  obtain ⟨i, _, hi⟩ := hb
  omega

/-- C6: decrypting the result of encrypting any string with the same
32-byte key yields the original string (the claim's quantifier "every
UTF-8 string" covers in particular the empty and the 10,000-character
strings; see the witness). The nonce is the fresh random 12 bytes drawn
inside `encrypt`. -/
theorem encrypt_decrypt_roundtrip (key nonce : List Nat) (s : String)
    (hkey : key.length = 32) (hnonce : ∀ b ∈ nonce, b < 256)
    (hnlen : nonce.length = 12) :
    decrypt key (encrypt key nonce s) = some s := by
  have hct : ∀ b ∈ gcmCrypt key nonce (utf8Encode s), b < 256 := by
    rw [gcmCrypt]
    exact ctrCryptAux_lt key _ 0 _ (utf8Encode_lt s)
  have htag : ∀ b ∈ gcmTag key nonce (gcmCrypt key nonce (utf8Encode s)), b < 256 := by
    rw [gcmTag]
    exact toBytesBE_lt 16 _
  show decrypt key
    { ciphertext := b64encode (gcmCrypt key nonce (utf8Encode s)),
      nonce := b64encode nonce,
      tag := b64encode (gcmTag key nonce (gcmCrypt key nonce (utf8Encode s))) } = some s
  rw [decrypt]
  simp only [b64decode_encode _ hct, b64decode_encode _ hnonce, b64decode_encode _ htag]
  rw [if_true, gcmCrypt, gcmCrypt, ctrCryptAux_invol]
  exact utf8_roundtrip s

/-- Witness for C6: a concrete 32-byte key and 12-byte nonce, applied to
the empty string and to a 10,000-character string. -/
theorem encrypt_decrypt_roundtrip_witness :
    decrypt (List.replicate 32 7) (encrypt (List.replicate 32 7)
      (List.replicate 12 3) "") = some "" ∧
    decrypt (List.replicate 32 7) (encrypt (List.replicate 32 7)
      (List.replicate 12 3) (String.mk (List.replicate 10000 'a'))) =
      some (String.mk (List.replicate 10000 'a')) :=
  ⟨encrypt_decrypt_roundtrip _ _ _ (by simp) (by simp) (by simp),
   encrypt_decrypt_roundtrip _ _ _ (by simp) (by simp) (by simp)⟩

end ClipSyncer
